/-
Verification of the WhatsApp group-monitor (`whatsapp_alarm.py`) against its
natural-language specification. The Python functions are shallowly embedded:
pure text processing (`normalize`, `keyword_hit`, the sender parse) becomes
pure functions on `String`/`List Char`; the snapshot reader, the seeding and
the polling loop become functions over explicit inputs, with fallible reads
modelled by `Except` and the mutable `seen_ids` set threaded as a
`Finset String`; observable output (printed lines, alarms) is collected as a
list of events.
-/
import Mathlib

namespace WhatsAppAlarm
/-- Whitespace class of the regex in `normalize` (`re.sub(r"\s+", " ", text)`,
`whatsapp_alarm.py` line 48), restricted to its ASCII part: tab (9), LF (10),
VT (11), FF (12), CR (13) and space (32). -/
def isPySpace (c : Char) : Bool :=
  c.toNat == 9 || c.toNat == 10 || c.toNat == 11 || c.toNat == 12 ||
  c.toNat == 13 || c.toNat == 32

/-- State machine for `re.sub(r"\s+", " ", text)`: the flag records whether we
are inside a whitespace run whose single replacement space was already emitted. -/
def collapseGo : Bool → List Char → List Char
  | _, [] => []
  | inRun, c :: cs =>
    if isPySpace c then
      if inRun then collapseGo true cs else ' ' :: collapseGo true cs
    else c :: collapseGo false cs

/-- Full substitution `re.sub(r"\s+", " ", text)`: each maximal whitespace run becomes one space. -/
def collapseWS (l : List Char) : List Char :=
  collapseGo false l

/-- Python `str.strip()`: drop whitespace from both ends. -/
def pyStrip (l : List Char) : List Char :=
  ((l.dropWhile isPySpace).reverse.dropWhile isPySpace).reverse

/-- Python `str.strip()` on strings. -/
def pyStripStr (s : String) : String :=
  ⟨pyStrip s.data⟩

/-- Function `normalize` (`whatsapp_alarm.py` lines 47–48):
`re.sub(r"\s+", " ", text).strip().lower()`. Lower-casing is Python `str.lower()`
on the ASCII letters, which is `Char.toLower`. -/
def normalize (text : String) : String :=
  ⟨((pyStrip (collapseWS text.data)).map Char.toLower)⟩

/-- Adjacent-pair relation for the collapsed invariant: the two characters are
not both whitespace. -/
def NotBothWS (a b : Char) : Prop :=
  (isPySpace a && isPySpace b) = false

/-- Python substring test `needle in hay`, on the underlying character lists. -/
def strContains (hay needle : String) : Bool :=
  decide (needle.data <:+: hay.data)

/-- Function `keyword_hit` (`whatsapp_alarm.py` lines 51–56): normalize the text once,
then return the first keyword (in list order, with its original casing) whose
normalized form is a substring, else `none`. -/
def keyword_hit (text : String) (keywords : List String) : Option String :=
  let t := normalize text
  keywords.find? (fun kw => strContains t (normalize kw))

/-- Split at the first occurrence of `sep`: `some (pre, post)` with
`l = pre ++ sep ++ post` at the first occurrence, `none` when `sep` does not
occur. This is Python `l.split(sep, 1)` for a present separator; the guarding
containment test `sep in l` succeeds exactly when the result is `some`
(`splitFirst_none_iff`). -/
def splitFirst (sep : List Char) : List Char → Option (List Char × List Char)
  | [] => none
  | c :: cs =>
    if sep.isPrefixOf (c :: cs) then some ([], (c :: cs).drop sep.length)
    else
      match splitFirst sep cs with
      | none => none
      | some (pre, post) => some (c :: pre, post)

/-- Sender parsing from the already-stripped metadata string
(`whatsapp_alarm.py` lines 191–195): `sender = "Unknown"`, overwritten only
when `"] "` occurs in the metadata and `": "` occurs in the part after it. -/
def sender_of_meta (meta : String) : String :=
  match splitFirst "] ".data meta.data with
  | none => "Unknown"
  | some (_, aft) =>
    match splitFirst ": ".data aft with
    | none => "Unknown"
    | some (bef, _) => pyStripStr ⟨bef⟩

/-- Lines 189–195 as a whole: `meta = (attr or "").strip()` and then the
sender parse on the stripped metadata. -/
def sender_of_raw (raw : String) : String :=
  sender_of_meta (pyStripStr raw)

/-- The `(msg_id, sender, text)` triple built per message element
(`whatsapp_alarm.py` line 205). -/
structure Msg where
  mid : String
  sender : String
  text : String
  deriving DecidableEq

/-- One `div[@data-pre-plain-text]` element as the snapshot reader sees it.
Each of the two reads (`get_attribute("data-pre-plain-text")` and `.text`)
either returns its value (`none` models Python `None`, turned into `""` by
`or ""`) or raises, modelled by `Except.error ()`. -/
structure RawElem where
  preplain : Except Unit (Option String)
  visible : Except Unit (Option String)

/-- The per-element loop body of `get_messages` (lines 187–208): a failing
read skips the element (`except Exception: continue`), empty stripped text
skips it, otherwise the element yields `(meta|text, sender, text)`. -/
def read_block (b : RawElem) : Option Msg :=
  match b.preplain with
  | .error _ => none
  | .ok attr =>
    let meta := pyStripStr (attr.getD "")
    let sender := sender_of_meta meta
    match b.visible with
    | .error _ => none
    | .ok t =>
      let text := pyStripStr (t.getD "")
      if text = "" then none
      else some ⟨meta ++ "|" ++ text, sender, text⟩

/-- Function `get_messages` (lines 179–210): run the per-element body over all blocks
in document order and collect the produced triples. -/
def get_messages : List RawElem → List Msg
  | [] => []
  | b :: bs =>
    match read_block b with
    | none => get_messages bs
    | some m => m :: get_messages bs

def okElem (m t : String) : RawElem := ⟨.ok (some m), .ok (some t)⟩

/-- Observable per-message output of one loop iteration (lines 268–277): the
printed `[ts] sender: text` line and the alarm with its matched keyword, each
tagged with the message that produced it. -/
inductive Event
  | printed (m : Msg)
  | alarm (m : Msg) (kw : String)
  deriving DecidableEq

/-- The `for msg_id, sender, text in new_items` body (lines 268–277): add the
id to the seen set, print the line, test the keywords, alarm on a hit. The
delta list was computed before this loop, so the evolving seen set is never
consulted here. -/
def process_new (kws : List String) : Finset String → List Msg → Finset String × List Event
  | seen, [] => (seen, [])
  | seen, m :: rest =>
    let evs : List Event :=
      Event.printed m :: (match keyword_hit m.text kws with
        | some k => [Event.alarm m k]
        | none => [])
    let p := process_new kws (insert m.mid seen) rest
    (p.1, evs ++ p.2)

/-- One `POLLING` cycle (lines 263–277) on an already-extracted snapshot:
`new_items` filters the snapshot against the seen set as of cycle start, then
each new item is processed in order. -/
def poll_cycle (kws : List String) (seen : Finset String) (msgs : List Msg) :
    Finset String × List Event :=
  process_new kws seen (msgs.filter (fun m => decide (m.mid ∉ seen)))

/-- The polling loop over a finite schedule of snapshots. -/
def run_polls (kws : List String) : Finset String → List (List Msg) → Finset String × List Event
  | seen, [] => (seen, [])
  | seen, snap :: rest =>
    let c := poll_cycle kws seen snap
    let r := run_polls kws c.1 rest
    (r.1, c.2 ++ r.2)

/-- Number of printed lines attributed to message id `i`. -/
def printedCount (i : String) (evs : List Event) : Nat :=
  (evs.filter (fun e => match e with | .printed m => m.mid == i | _ => false)).length

/-- Number of alarms attributed to message id `i`. -/
def alarmCount (i : String) (evs : List Event) : Nat :=
  (evs.filter (fun e => match e with | .alarm m _ => m.mid == i | _ => false)).length

/-- The seeding in `main` as written (lines 245–258): a first pass over a
first read fills a set, `seen_ids = set()` (line 252) discards it, and a
second pass over a second read fills the set the loop then uses. -/
def seed_startup (snap1 snap2 : List Msg) : Finset String :=
  let _firstPass := snap1.foldl (fun s m => insert m.mid s) (∅ : Finset String)
  snap2.foldl (fun s m => insert m.mid s) (∅ : Finset String)

/-- Specification-side refinement target (§4.6 `SEEDED`): seed once from a
single snapshot — every observed id added, no output. -/
def seedOnce (snap : List Msg) : Finset String :=
  snap.foldl (fun s m => insert m.mid s) (∅ : Finset String)

/-- One `POLLING` iteration of the `while True` loop in `main` together with
its failure behaviour (lines 260–279 and 282–283): `scroll_chat_to_bottom`
(lines 167–176) wraps its whole body in `try/except: pass`, so its outcome is
invisible to the loop; an exception raised by the `get_messages` enumeration
itself propagates out of the `while` loop into the top-level handler, which
logs it and ends the session. Per-element read failures were already absorbed
inside `get_messages`. -/
structure CycleInput where
  scrollOutcome : Except Unit Unit
  snapshot : Except Unit (List RawElem)

/-- Result of one cycle: proceed to the next cycle with the new seen set and
this cycle's output, or abort the whole loop. -/
inductive CycleOutcome
  | next (seen : Finset String) (events : List Event)
  | aborted
  deriving DecidableEq

def run_cycle (kws : List String) (seen : Finset String) (inp : CycleInput) : CycleOutcome :=
  match inp.snapshot with
  | .error _ => .aborted
  | .ok blocks =>
    let c := poll_cycle kws seen (get_messages blocks)
    .next c.1 c.2

/-- The `while True` loop over a finite schedule of cycle inputs. The third
component records whether the loop was terminated by a propagated exception;
cycles after that point are never executed. -/
def run_loop (kws : List String) : Finset String → List CycleInput → Finset String × List Event × Bool
  | seen, [] => (seen, [], false)
  | seen, inp :: rest =>
    match run_cycle kws seen inp with
    | .aborted => (seen, [], true)
    | .next s evs =>
      let r := run_loop kws s rest
      (r.1, evs ++ r.2.1, r.2.2)

/-- Outcome of one attempt of the `for attempt in range(1, 6)` loop in
`open_group_chat` (lines 123–160): the attempt returns, raises
`StaleElementReferenceException`, or raises any other exception. -/
inductive AttemptResult
  | success
  | staleFail
  | otherFail
  deriving DecidableEq

/-- The retry loop of `open_group_chat` (lines 123–162), recursing on the
remaining attempt budget: a successful attempt returns its number, both
failure kinds continue (after their pauses), an exhausted budget raises
`RuntimeError`. -/
def open_go (outcome : Nat → AttemptResult) : Nat → Nat → Except String Nat
  | _, 0 => .error "Could not open group chat after multiple retries. WhatsApp DOM likely changed."
  | attempt, r + 1 =>
    match outcome attempt with
    | .success => .ok attempt
    | .staleFail => open_go outcome (attempt + 1) r
    | .otherFail => open_go outcome (attempt + 1) r

/-- Function `open_group_chat`: attempts numbered 1..5 (`range(1, 6)`). -/
def open_group_chat (outcome : Nat → AttemptResult) : Except String Nat :=
  open_go outcome 1 5

/-- Function `main` (lines 235–288) from the `open_group_chat` call onward: a failed
open raises before any seeding or polling happens, so the session emits no
message events and terminates; a successful open seeds (lines 245–258) and
enters the polling loop. -/
def main_session (kws : List String) (openRes : Except String Nat)
    (snap1 snap2 : List Msg) (polls : List CycleInput) : List Event × Bool :=
  match openRes with
  | .error _ => ([], true)
  | .ok _ =>
    let r := run_loop kws (seed_startup snap1 snap2) polls
    (r.2.1, r.2.2)

/-- Concrete message for counterexamples and witnesses. Its id is `meta|text`,
so two identical messages in the same minute collide on it and one snapshot
can contain the same id twice. -/
def msgU : Msg :=
  ⟨"[09:10, 1/1/2024] Alice:|this is urgent", "Unknown", "this is urgent"⟩

/-- Concrete raw element whose extraction yields `msgU`. -/
def elemU : RawElem :=
  ⟨.ok (some "[09:10, 1/1/2024] Alice: "), .ok (some "this is urgent")⟩

/-- Concrete attempt schedule: failure on attempt 1, success on attempt 2. -/
def outcomeTwo : Nat → AttemptResult :=
  fun i => if i = 2 then .success else .staleFail

theorem toNat_toLower_of_upper (c : Char) (h : 65 ≤ c.toNat ∧ c.toNat ≤ 90) :
    (Char.toLower c).toNat = c.toNat + 32 := by
  have hv : (c.toNat + 32).isValidChar := Or.inl (by omega)
  rw [Char.toLower]
  rw [if_pos h]
  rw [Char.ofNat]
  rw [dif_pos hv]
  rfl

theorem toLower_eq_self_of_not_upper (c : Char) (h : ¬(65 ≤ c.toNat ∧ c.toNat ≤ 90)) :
    Char.toLower c = c := by
  rw [Char.toLower]
  rw [if_neg h]

theorem isPySpace_eq_false_of_ge (c : Char) (h : 33 ≤ c.toNat) : isPySpace c = false := by
  simp only [isPySpace, Bool.or_eq_false_iff, beq_eq_false_iff_ne, ne_eq]
  omega

theorem codes_of_isPySpace (c : Char) (h : isPySpace c = true) : c.toNat ≤ 32 := by
  simp only [isPySpace, Bool.or_eq_true, beq_iff_eq] at h
  omega

theorem isPySpace_toLower (c : Char) : isPySpace (Char.toLower c) = isPySpace c := by
  by_cases h : 65 ≤ c.toNat ∧ c.toNat ≤ 90
  · rw [isPySpace_eq_false_of_ge _ (by rw [toNat_toLower_of_upper c h]; omega)]
    rw [isPySpace_eq_false_of_ge _ (by omega)]
  · rw [toLower_eq_self_of_not_upper c h]

theorem toLower_toLower (c : Char) : Char.toLower (Char.toLower c) = Char.toLower c := by
  by_cases h : 65 ≤ c.toNat ∧ c.toNat ≤ 90
  · apply toLower_eq_self_of_not_upper
    rw [toNat_toLower_of_upper c h]
    omega
  · rw [toLower_eq_self_of_not_upper c h]
    exact toLower_eq_self_of_not_upper c h

theorem toLower_space_eq (c : Char) (h : isPySpace c = true) : Char.toLower c = c := by
  apply toLower_eq_self_of_not_upper
  have := codes_of_isPySpace c h
  omega

theorem collapseGo_spaces (l : List Char) :
    ∀ flag, ∀ c ∈ collapseGo flag l, isPySpace c = true → c = ' ' := by
  induction l with
  | nil => intro flag c hc; simp [collapseGo] at hc
  | cons a cs ih =>
    intro flag c hc hsp
    by_cases ha : isPySpace a
    · cases flag with
      | true =>
        rw [collapseGo, if_pos ha] at hc
        exact ih true c hc hsp
      | false =>
        rw [collapseGo, if_pos ha] at hc
        rcases List.mem_cons.mp hc with h | h
        · exact h
        · exact ih true c h hsp
    · rw [collapseGo, if_neg ha] at hc
      rcases List.mem_cons.mp hc with h | h
      · subst h; exact absurd hsp (by simp [ha])
      · exact ih false c h hsp

theorem head_collapseGo_true (l : List Char) :
    ∀ c, (collapseGo true l).head? = some c → isPySpace c = false := by
  induction l with
  | nil => intro c hc; simp [collapseGo] at hc
  | cons a cs ih =>
    intro c hc
    by_cases ha : isPySpace a
    · rw [collapseGo, if_pos ha] at hc
      exact ih c hc
    · rw [collapseGo, if_neg ha] at hc
      simp only [List.head?_cons, Option.some.injEq] at hc
      subst hc
      simpa using ha

theorem chain_collapseGo (l : List Char) :
    ∀ flag, List.Chain' NotBothWS (collapseGo flag l) := by
  induction l with
  | nil => intro flag; simp [collapseGo]
  | cons a cs ih =>
    intro flag
    by_cases ha : isPySpace a
    · cases flag with
      | true =>
        rw [collapseGo, if_pos ha, if_pos rfl]
        exact ih true
      | false =>
        rw [collapseGo, if_pos ha, if_neg (by decide)]
        rw [List.chain'_cons']
        refine ⟨?_, ih true⟩
        intro y hy
        have := head_collapseGo_true cs y hy
        simp [NotBothWS, this]
    · rw [collapseGo, if_neg ha]
      rw [List.chain'_cons']
      refine ⟨?_, ih false⟩
      intro y hy
      simp only [Bool.not_eq_true] at ha
      simp [NotBothWS, ha]

theorem collapseGo_true_eq_false_of_head (d : Char) (ds : List Char)
    (hd : isPySpace d = false) :
    collapseGo true (d :: ds) = collapseGo false (d :: ds) := by
  rw [collapseGo, collapseGo]
  simp [hd]

theorem collapseGo_false_eq_self (l : List Char)
    (hsp : ∀ c ∈ l, isPySpace c = true → c = ' ')
    (hch : List.Chain' NotBothWS l) :
    collapseGo false l = l := by
  induction l with
  | nil => rfl
  | cons a cs ih =>
    by_cases ha : isPySpace a
    · have ha' : a = ' ' := hsp a (List.mem_cons_self a cs) ha
      rw [collapseGo, if_pos ha, if_neg (by decide)]
      have hcs : collapseGo true cs = cs := by
        cases cs with
        | nil => rfl
        | cons d ds =>
          have hR : NotBothWS a d := (List.chain'_cons.mp hch).1
          have hd : isPySpace d = false := by
            by_contra hcon
            simp only [Bool.not_eq_false] at hcon
            simp [NotBothWS, ha, hcon] at hR
          rw [collapseGo_true_eq_false_of_head d ds hd]
          exact ih (fun c hc h => hsp c (List.mem_cons_of_mem a hc) h) hch.tail
      rw [hcs, ha']
    · rw [collapseGo, if_neg ha]
      rw [ih (fun c hc h => hsp c (List.mem_cons_of_mem a hc) h) hch.tail]

theorem dropWhile_eq_self_of_head (p : Char → Bool) (l : List Char)
    (h : ∀ c, l.head? = some c → p c = false) : l.dropWhile p = l := by
  cases l with
  | nil => rfl
  | cons a t =>
    rw [List.dropWhile_cons]
    simp [h a rfl]

theorem head_dropWhile (p : Char → Bool) (l : List Char) :
    ∀ c, ((l.dropWhile p).head? = some c) → p c = false := by
  induction l with
  | nil => intro c hc; simp at hc
  | cons a t ih =>
    intro c hc
    rw [List.dropWhile_cons] at hc
    by_cases hpa : p a
    · rw [if_pos hpa] at hc
      exact ih c hc
    · rw [if_neg hpa] at hc
      simp only [List.head?_cons, Option.some.injEq] at hc
      subst hc
      simpa using hpa

theorem getLast_dropWhile (p : Char → Bool) (v : List Char) (c : Char)
    (h : (v.dropWhile p).getLast? = some c) : v.getLast? = some c := by
  obtain ⟨t, ht⟩ := List.dropWhile_suffix (l := v) p
  rw [← ht, List.getLast?_append, h]
  rfl

theorem pyStrip_head (l : List Char) :
    ∀ c, (pyStrip l).head? = some c → isPySpace c = false := by
  intro c hc
  unfold pyStrip at hc
  rw [List.head?_reverse] at hc
  have h2 := getLast_dropWhile isPySpace (l.dropWhile isPySpace).reverse c hc
  rw [List.getLast?_reverse] at h2
  exact head_dropWhile isPySpace l c h2

theorem pyStrip_last (l : List Char) :
    ∀ c, (pyStrip l).getLast? = some c → isPySpace c = false := by
  intro c hc
  unfold pyStrip at hc
  rw [List.getLast?_reverse] at hc
  exact head_dropWhile isPySpace (l.dropWhile isPySpace).reverse c hc

theorem pyStrip_eq_self (l : List Char)
    (h1 : ∀ c, l.head? = some c → isPySpace c = false)
    (h2 : ∀ c, l.getLast? = some c → isPySpace c = false) : pyStrip l = l := by
  unfold pyStrip
  rw [dropWhile_eq_self_of_head _ l h1]
  rw [dropWhile_eq_self_of_head _ l.reverse
    (fun c hc => h2 c (by rwa [List.head?_reverse] at hc))]
  exact List.reverse_reverse l

theorem pyStrip_isInfixOf (l : List Char) : ∃ s t, s ++ pyStrip l ++ t = l := by
  obtain ⟨t, ht⟩ := List.dropWhile_suffix (l := l) isPySpace
  obtain ⟨q, hq⟩ := List.dropWhile_suffix (l := (l.dropWhile isPySpace).reverse) isPySpace
  refine ⟨t, q.reverse, ?_⟩
  have hu : l.dropWhile isPySpace = pyStrip l ++ q.reverse := by
    unfold pyStrip
    calc l.dropWhile isPySpace
        = (l.dropWhile isPySpace).reverse.reverse := (List.reverse_reverse _).symm
      _ = (q ++ ((l.dropWhile isPySpace).reverse.dropWhile isPySpace)).reverse := by rw [hq]
      _ = ((l.dropWhile isPySpace).reverse.dropWhile isPySpace).reverse ++ q.reverse := by
          rw [List.reverse_append]
  rw [List.append_assoc, ← hu, ht]

theorem mem_pyStrip (l : List Char) (c : Char) (hc : c ∈ pyStrip l) : c ∈ l := by
  obtain ⟨s, t, hst⟩ := pyStrip_isInfixOf l
  rw [← hst]
  simp [hc]

theorem chain_pyStrip (l : List Char) (h : List.Chain' NotBothWS l) :
    List.Chain' NotBothWS (pyStrip l) := by
  obtain ⟨s, t, hst⟩ := pyStrip_isInfixOf l
  exact List.Chain'.infix h ⟨s, t, hst⟩

theorem normalize_idem (s : String) : normalize (normalize s) = normalize s := by
  have hsp0 : ∀ c ∈ collapseWS s.data, isPySpace c = true → c = ' ' :=
    fun c hc => collapseGo_spaces s.data false c hc
  have hch0 : List.Chain' NotBothWS (collapseWS s.data) := chain_collapseGo s.data false
  have hsp1 : ∀ c ∈ pyStrip (collapseWS s.data), isPySpace c = true → c = ' ' :=
    fun c hc => hsp0 c (mem_pyStrip _ c hc)
  have hch1 : List.Chain' NotBothWS (pyStrip (collapseWS s.data)) := chain_pyStrip _ hch0
  -- the normalized character list
  have hsp2 : ∀ c ∈ (pyStrip (collapseWS s.data)).map Char.toLower,
      isPySpace c = true → c = ' ' := by
    intro c hc hspc
    obtain ⟨a, ha, rfl⟩ := List.mem_map.mp hc
    rw [isPySpace_toLower] at hspc
    rw [hsp1 a ha hspc]
    exact toLower_space_eq ' ' (by decide)
  have hch2 : List.Chain' NotBothWS ((pyStrip (collapseWS s.data)).map Char.toLower) := by
    rw [List.chain'_map]
    refine List.Chain'.imp ?_ hch1
    intro a b hab
    simp only [NotBothWS, isPySpace_toLower]
    exact hab
  have hhead2 : ∀ c, (((pyStrip (collapseWS s.data)).map Char.toLower).head? = some c) →
      isPySpace c = false := by
    intro c hc
    rw [List.head?_map, Option.map_eq_some'] at hc
    obtain ⟨a, ha, rfl⟩ := hc
    rw [isPySpace_toLower]
    exact pyStrip_head _ a ha
  have hlast2 : ∀ c, (((pyStrip (collapseWS s.data)).map Char.toLower).getLast? = some c) →
      isPySpace c = false := by
    intro c hc
    rw [List.getLast?_map, Option.map_eq_some'] at hc
    obtain ⟨a, ha, rfl⟩ := hc
    rw [isPySpace_toLower]
    exact pyStrip_last _ a ha
  show (⟨((pyStrip (collapseWS ((pyStrip (collapseWS s.data)).map Char.toLower))).map
      Char.toLower)⟩ : String) = ⟨(pyStrip (collapseWS s.data)).map Char.toLower⟩
  have hcol : collapseWS ((pyStrip (collapseWS s.data)).map Char.toLower)
      = (pyStrip (collapseWS s.data)).map Char.toLower :=
    collapseGo_false_eq_self _ hsp2 hch2
  rw [hcol]
  have hstr : pyStrip ((pyStrip (collapseWS s.data)).map Char.toLower)
      = (pyStrip (collapseWS s.data)).map Char.toLower :=
    pyStrip_eq_self _ hhead2 hlast2
  rw [hstr]
  have hmap : ((pyStrip (collapseWS s.data)).map Char.toLower).map Char.toLower
      = (pyStrip (collapseWS s.data)).map Char.toLower := by
    rw [List.map_map]
    exact List.map_congr_left fun a _ => toLower_toLower a
  rw [hmap]

/-- C5: the text normalizer is total and pure by construction, maps
`"  Alert   NOW "` to `"alert now"`, and is idempotent on every string. -/
theorem C5_normalize_idempotent :
    normalize "  Alert   NOW " = "alert now"
    ∧ ∀ s : String, normalize (normalize s) = normalize s :=
  ⟨by decide, normalize_idem⟩

/-- C4: the keyword matcher returns `none` exactly when no keyword's
normalized form is a substring of the normalized text, and returns `some k`
only for a keyword of the list (original casing) whose normalized form is a
substring and that is first in configured order among the matching ones. -/
theorem C4_keyword_matcher (text : String) (kws : List String) :
    (keyword_hit text kws = none ↔
      ∀ kw ∈ kws, ¬ (normalize kw).data <:+: (normalize text).data)
    ∧ (∀ k, keyword_hit text kws = some k →
        (normalize k).data <:+: (normalize text).data ∧
        ∃ pre post, kws = pre ++ k :: post ∧
          ∀ kw ∈ pre, ¬ (normalize kw).data <:+: (normalize text).data) := by
  constructor
  · rw [keyword_hit, List.find?_eq_none]
    simp [strContains]
  · intro k hk
    rw [keyword_hit, List.find?_eq_some] at hk
    obtain ⟨hp, pre, post, heq, hpre⟩ := hk
    refine ⟨of_decide_eq_true hp, pre, post, heq, ?_⟩
    intro kw hkw
    have := hpre kw hkw
    simpa [strContains] using this

theorem C4_keyword_matcher_witness :
    keyword_hit "nothing here" ["alert", "urgent"] = none
    ∧ (normalize "alert").data <:+: (normalize "this is an ALERT!").data
    ∧ (∃ pre post, ["alert", "urgent"] = pre ++ "alert" :: post
        ∧ ∀ kw ∈ pre, ¬ (normalize kw).data <:+: (normalize "this is an ALERT!").data) :=
  ⟨(C4_keyword_matcher "nothing here" ["alert", "urgent"]).1.mpr (by decide),
   ((C4_keyword_matcher "this is an ALERT!" ["alert", "urgent"]).2 "alert" (by decide)).1,
   ((C4_keyword_matcher "this is an ALERT!" ["alert", "urgent"]).2 "alert" (by decide)).2⟩

theorem splitFirst_none_iff (sep : List Char) (hne : sep ≠ []) (l : List Char) :
    splitFirst sep l = none ↔ ¬ sep <:+: l := by
  induction l with
  | nil =>
    simp only [splitFirst, List.infix_nil]
    exact ⟨fun _ h => hne h, fun _ => trivial⟩
  | cons c cs ih =>
    by_cases hp : sep.isPrefixOf (c :: cs)
    · rw [splitFirst, if_pos hp]
      have hpre : sep <+: c :: cs := List.isPrefixOf_iff_prefix.mp hp
      simp only [List.infix_cons_iff]
      constructor
      · intro h; exact absurd h (by simp)
      · intro h; exact absurd (Or.inl hpre) h
    · rw [splitFirst, if_neg hp]
      have hnpre : ¬ sep <+: c :: cs := by
        intro h
        apply hp
        exact List.isPrefixOf_iff_prefix.mpr h
      rw [List.infix_cons_iff]
      cases hsc : splitFirst sep cs with
      | none =>
        have hni : ¬ sep <:+: cs := ih.mp hsc
        constructor
        · intro _ h
          rcases h with h | h
          · exact hnpre h
          · exact hni h
        · intro _; rfl
      | some pr =>
        obtain ⟨p1, p2⟩ := pr
        have hin : sep <:+: cs := by
          by_contra hni
          have h0 := ih.mpr hni
          rw [hsc] at h0
          simp at h0
        constructor
        · intro h; exact Option.noConfusion h
        · intro h; exact absurd (Or.inr hin) h

/-- C6: evaluation of the sender parse at the claim's example. The code
strips the metadata before parsing, which removes the trailing space of the
documented format `"[HH:MM, DD/MM/YYYY] Name: "`; the part after `"] "` then
no longer contains `": "`, so the code yields `"Unknown"` where the claim
(and the code's own comment) expect `"Alice"`. With trailing content after
the colon-space the parse does yield the name. -/
theorem C6_sender_eval :
    sender_of_raw "[09:10, 1/1/2024] Alice: " = "Unknown" ∧
    sender_of_raw "[09:10, 1/1/2024] Alice: hi" = "Alice" := by
  refine ⟨by decide, by decide⟩

theorem get_messages_append (l1 l2 : List RawElem) :
    get_messages (l1 ++ l2) = get_messages l1 ++ get_messages l2 := by
  induction l1 with
  | nil => rfl
  | cons b bs ih =>
    rw [List.cons_append, get_messages, get_messages]
    cases read_block b with
    | none => exact ih
    | some m => rw [ih]; rfl

/-- C7: the snapshot reader is total — an empty snapshot yields the empty
list; an element whose stripped visible text is empty yields no message; a
read failure on either facet of an element skips exactly that element,
leaving the remaining elements in document order. -/
theorem C7_snapshot_reader :
    get_messages [] = []
    ∧ (∀ pre b post, read_block b = none →
        get_messages (pre ++ b :: post) = get_messages (pre ++ post))
    ∧ (∀ b e, (b.preplain = .error e ∨ b.visible = .error e) → read_block b = none)
    ∧ (∀ b attr t, b.preplain = .ok attr → b.visible = .ok t →
        pyStripStr (t.getD "") = "" → read_block b = none) := by
  refine ⟨rfl, ?_, ?_, ?_⟩
  · intro pre b post hb
    rw [get_messages_append, get_messages_append, get_messages, hb]
  · intro b e hb
    rcases hb with hb | hb
    · rw [read_block, hb]
    · rw [read_block, hb]
      cases b.preplain with
      | error u => rfl
      | ok attr => rfl
  · intro b attr t hp hv ht
    rw [read_block, hp, hv]
    simp [ht]

theorem C7_snapshot_reader_witness :
    get_messages [okElem "m1" "hello", ⟨.error (), .ok (some "x")⟩, okElem "m2" "world"]
      = get_messages [okElem "m1" "hello", okElem "m2" "world"] :=
  C7_snapshot_reader.2.1 [okElem "m1" "hello"] ⟨.error (), .ok (some "x")⟩
    [okElem "m2" "world"]
    (C7_snapshot_reader.2.2.1 ⟨.error (), .ok (some "x")⟩ () (Or.inl rfl))

theorem process_new_subset (kws : List String) (l : List Msg) :
    ∀ seen : Finset String, seen ⊆ (process_new kws seen l).1 := by
  induction l with
  | nil => intro seen; exact Finset.Subset.refl seen
  | cons m rest ih =>
    intro seen
    exact (Finset.subset_insert m.mid seen).trans (ih (insert m.mid seen))

theorem mid_mem_process (kws : List String) (l : List Msg) (m : Msg) (hm : m ∈ l) :
    ∀ seen : Finset String, m.mid ∈ (process_new kws seen l).1 := by
  induction l with
  | nil => cases hm
  | cons a rest ih =>
    intro seen
    rcases List.mem_cons.mp hm with h | h
    · subst h
      exact process_new_subset kws rest (insert m.mid seen) (Finset.mem_insert_self m.mid seen)
    · exact ih h (insert a.mid seen)

theorem printedCount_append (i : String) (a b : List Event) :
    printedCount i (a ++ b) = printedCount i a + printedCount i b := by
  simp [printedCount, List.filter_append]

theorem alarmCount_append (i : String) (a b : List Event) :
    alarmCount i (a ++ b) = alarmCount i a + alarmCount i b := by
  simp [alarmCount, List.filter_append]

theorem printedCount_process (i : String) (kws : List String) (l : List Msg) :
    ∀ seen, printedCount i (process_new kws seen l).2
      = (l.filter (fun m => m.mid == i)).length := by
  induction l with
  | nil => intro seen; rfl
  | cons m rest ih =>
    intro seen
    rw [process_new]
    simp only []
    rw [printedCount_append, ih (insert m.mid seen)]
    by_cases hmi : m.mid = i
    · cases hk : keyword_hit m.text kws with
      | none => simp [printedCount, List.filter_cons, hmi]; omega
      | some k => simp [printedCount, List.filter_cons, hmi]; omega
    · cases hk : keyword_hit m.text kws with
      | none => simp [printedCount, List.filter_cons, hmi]
      | some k => simp [printedCount, List.filter_cons, hmi]

theorem alarmCount_process (i : String) (kws : List String) (l : List Msg) :
    ∀ seen, alarmCount i (process_new kws seen l).2
      ≤ (l.filter (fun m => m.mid == i)).length := by
  induction l with
  | nil => intro seen; exact Nat.le_refl 0
  | cons m rest ih =>
    intro seen
    rw [process_new]
    simp only []
    rw [alarmCount_append]
    have hrest := ih (insert m.mid seen)
    have hhead : alarmCount i (Event.printed m :: (match keyword_hit m.text kws with
        | some k => [Event.alarm m k]
        | none => [])) ≤ (if m.mid == i then 1 else 0) := by
      cases hk : keyword_hit m.text kws with
      | none => by_cases h : m.mid = i <;> simp [alarmCount, List.filter_cons, h]
      | some k => by_cases h : m.mid = i <;> simp [alarmCount, List.filter_cons, h]
    rw [List.filter_cons]
    by_cases h : m.mid = i
    · rw [if_pos (show ((m.mid == i) = true) by simpa using h)] at hhead ⊢
      simp only [List.length_cons]
      omega
    · rw [if_neg (show ¬((m.mid == i) = true) by simpa using h)] at hhead ⊢
      omega

theorem poll_cycle_subset (kws : List String) (seen : Finset String) (msgs : List Msg) :
    seen ⊆ (poll_cycle kws seen msgs).1 :=
  process_new_subset kws _ seen

theorem mid_mem_poll_cycle (kws : List String) (seen : Finset String) (msgs : List Msg)
    (m : Msg) (hm : m ∈ msgs) : m.mid ∈ (poll_cycle kws seen msgs).1 := by
  by_cases h : m.mid ∈ seen
  · exact poll_cycle_subset kws seen msgs h
  · apply mid_mem_process
    rw [List.mem_filter]
    exact ⟨hm, by simpa using h⟩

theorem printedCount_poll_of_mem (i : String) (kws : List String) (seen : Finset String)
    (msgs : List Msg) (h : i ∈ seen) :
    printedCount i (poll_cycle kws seen msgs).2 = 0 := by
  rw [poll_cycle, printedCount_process]
  rw [List.filter_filter]
  rw [List.length_eq_zero]
  rw [List.filter_eq_nil_iff]
  intro m _
  by_cases hmi : m.mid = i
  · subst hmi
    simp [h]
  · simp [hmi]

theorem alarmCount_poll_of_mem (i : String) (kws : List String) (seen : Finset String)
    (msgs : List Msg) (h : i ∈ seen) :
    alarmCount i (poll_cycle kws seen msgs).2 = 0 := by
  have h1 := alarmCount_process i kws (msgs.filter (fun m => decide (m.mid ∉ seen))) seen
  have h2 := printedCount_poll_of_mem i kws seen msgs h
  rw [poll_cycle] at h2 ⊢
  rw [printedCount_process] at h2
  rw [h2] at h1
  omega

theorem printedCount_poll_of_not_id (i : String) (kws : List String) (seen : Finset String)
    (msgs : List Msg) (h : i ∉ msgs.map Msg.mid) :
    printedCount i (poll_cycle kws seen msgs).2 = 0 := by
  rw [poll_cycle, printedCount_process]
  rw [List.filter_filter]
  rw [List.length_eq_zero]
  rw [List.filter_eq_nil_iff]
  intro m hm
  have : m.mid ≠ i := fun hmi => h (hmi ▸ List.mem_map_of_mem Msg.mid hm)
  simp [this]

theorem length_filter_and_le {α : Type} (p q : α → Bool) (l : List α) :
    (l.filter (fun a => p a && q a)).length ≤ (l.filter p).length := by
  induction l with
  | nil => exact Nat.le_refl 0
  | cons a t ih =>
    rw [List.filter_cons, List.filter_cons]
    by_cases hp : p a
    · by_cases hq : q a
      · simp only [hp, hq, Bool.and_self, if_pos rfl, List.length_cons]
        simpa using ih
      · have : (p a && q a) = false := by simp [hp, hq]
        rw [this]
        rw [if_pos (show (p a) = true from hp)]
        simp only [Bool.false_eq_true, if_false, List.length_cons]
        omega
    · have hp' : (p a) = false := by simpa using hp
      have : (p a && q a) = false := by simp [hp']
      rw [this, hp']
      simpa using ih

theorem filter_mid_length_le_one (i : String) (msgs : List Msg)
    (hnd : (msgs.map Msg.mid).Nodup) :
    (msgs.filter (fun m => m.mid == i)).length ≤ 1 := by
  have h1 : (msgs.filter (fun m => m.mid == i)).length
      = (msgs.map Msg.mid).count i := by
    rw [List.count, List.countP_map, List.countP_eq_length_filter]
    rfl
  rw [h1]
  exact List.nodup_iff_count_le_one.mp hnd i

theorem printedCount_poll_le_one (i : String) (kws : List String) (seen : Finset String)
    (msgs : List Msg) (hnd : (msgs.map Msg.mid).Nodup) :
    printedCount i (poll_cycle kws seen msgs).2 ≤ 1 := by
  rw [poll_cycle, printedCount_process, List.filter_filter]
  calc (msgs.filter (fun a => (a.mid == i) && decide (a.mid ∉ seen))).length
      ≤ (msgs.filter (fun m => m.mid == i)).length :=
        length_filter_and_le (fun m => m.mid == i) (fun m => decide (m.mid ∉ seen)) msgs
    _ ≤ 1 := filter_mid_length_le_one i msgs hnd

theorem alarmCount_poll_le_one (i : String) (kws : List String) (seen : Finset String)
    (msgs : List Msg) (hnd : (msgs.map Msg.mid).Nodup) :
    alarmCount i (poll_cycle kws seen msgs).2 ≤ 1 := by
  rw [poll_cycle]
  calc alarmCount i (process_new kws seen (msgs.filter (fun m => decide (m.mid ∉ seen)))).2
      ≤ ((msgs.filter (fun m => decide (m.mid ∉ seen))).filter
          (fun m => m.mid == i)).length := alarmCount_process i kws _ seen
    _ ≤ (msgs.filter (fun m => m.mid == i)).length := by
        rw [List.filter_filter]
        exact length_filter_and_le (fun m => m.mid == i) (fun m => decide (m.mid ∉ seen)) msgs
    _ ≤ 1 := filter_mid_length_le_one i msgs hnd

theorem run_polls_subset (kws : List String) (polls : List (List Msg)) :
    ∀ seen : Finset String, seen ⊆ (run_polls kws seen polls).1 := by
  induction polls with
  | nil => intro seen; exact Finset.Subset.refl seen
  | cons snap rest ih =>
    intro seen
    exact (poll_cycle_subset kws seen snap).trans (ih (poll_cycle kws seen snap).1)

theorem printedCount_run_of_mem (i : String) (kws : List String) (polls : List (List Msg)) :
    ∀ seen : Finset String, i ∈ seen → printedCount i (run_polls kws seen polls).2 = 0 := by
  induction polls with
  | nil => intro seen _; rfl
  | cons snap rest ih =>
    intro seen h
    rw [run_polls]
    simp only []
    rw [printedCount_append]
    rw [printedCount_poll_of_mem i kws seen snap h]
    rw [ih (poll_cycle kws seen snap).1 (poll_cycle_subset kws seen snap h)]

theorem alarmCount_run_of_mem (i : String) (kws : List String) (polls : List (List Msg)) :
    ∀ seen : Finset String, i ∈ seen → alarmCount i (run_polls kws seen polls).2 = 0 := by
  induction polls with
  | nil => intro seen _; rfl
  | cons snap rest ih =>
    intro seen h
    rw [run_polls]
    simp only []
    rw [alarmCount_append]
    rw [alarmCount_poll_of_mem i kws seen snap h]
    rw [ih (poll_cycle kws seen snap).1 (poll_cycle_subset kws seen snap h)]

theorem printedCount_run_le_one (i : String) (kws : List String) (polls : List (List Msg))
    (hnd : ∀ snap ∈ polls, (snap.map Msg.mid).Nodup) :
    ∀ seen : Finset String, printedCount i (run_polls kws seen polls).2 ≤ 1 := by
  induction polls with
  | nil => intro seen; exact Nat.le_succ 0
  | cons snap rest ih =>
    intro seen
    rw [run_polls]
    simp only []
    rw [printedCount_append]
    by_cases hmem : i ∈ seen
    · rw [printedCount_poll_of_mem i kws seen snap hmem]
      rw [printedCount_run_of_mem i kws rest _ (poll_cycle_subset kws seen snap hmem)]
      omega
    · by_cases hid : i ∈ snap.map Msg.mid
      · have h1 : printedCount i (poll_cycle kws seen snap).2 ≤ 1 :=
          printedCount_poll_le_one i kws seen snap (hnd snap (List.mem_cons_self snap rest))
        obtain ⟨m, hm, hmi⟩ := List.mem_map.mp hid
        have h2 : i ∈ (poll_cycle kws seen snap).1 :=
          hmi ▸ mid_mem_poll_cycle kws seen snap m hm
        rw [printedCount_run_of_mem i kws rest _ h2]
        omega
      · rw [printedCount_poll_of_not_id i kws seen snap hid]
        have := ih (fun s hs => hnd s (List.mem_cons_of_mem snap hs)) (poll_cycle kws seen snap).1
        omega

theorem alarmCount_run_le_one (i : String) (kws : List String) (polls : List (List Msg))
    (hnd : ∀ snap ∈ polls, (snap.map Msg.mid).Nodup) :
    ∀ seen : Finset String, alarmCount i (run_polls kws seen polls).2 ≤ 1 := by
  induction polls with
  | nil => intro seen; exact Nat.le_succ 0
  | cons snap rest ih =>
    intro seen
    rw [run_polls]
    simp only []
    rw [alarmCount_append]
    by_cases hmem : i ∈ seen
    · rw [alarmCount_poll_of_mem i kws seen snap hmem]
      rw [alarmCount_run_of_mem i kws rest _ (poll_cycle_subset kws seen snap hmem)]
      omega
    · by_cases hid : i ∈ snap.map Msg.mid
      · have h1 : alarmCount i (poll_cycle kws seen snap).2 ≤ 1 :=
          alarmCount_poll_le_one i kws seen snap (hnd snap (List.mem_cons_self snap rest))
        obtain ⟨m, hm, hmi⟩ := List.mem_map.mp hid
        have h2 : i ∈ (poll_cycle kws seen snap).1 :=
          hmi ▸ mid_mem_poll_cycle kws seen snap m hm
        rw [alarmCount_run_of_mem i kws rest _ h2]
        omega
      · have h0 : alarmCount i (poll_cycle kws seen snap).2 = 0 := by
          have ha := alarmCount_process i kws
            (snap.filter (fun m => decide (m.mid ∉ seen))) seen
          have hp := printedCount_poll_of_not_id i kws seen snap hid
          rw [poll_cycle, printedCount_process] at hp
          rw [poll_cycle]
          omega
        rw [h0]
        have := ih (fun s hs => hnd s (List.mem_cons_of_mem snap hs)) (poll_cycle kws seen snap).1
        omega

theorem subset_foldl_insert (l : List Msg) :
    ∀ s : Finset String, s ⊆ l.foldl (fun s m => insert m.mid s) s := by
  induction l with
  | nil => intro s; exact Finset.Subset.refl s
  | cons a rest ih =>
    intro s
    rw [List.foldl_cons]
    exact (Finset.subset_insert a.mid s).trans (ih (insert a.mid s))

theorem mid_mem_foldl_insert (l : List Msg) (m : Msg) (hm : m ∈ l) :
    ∀ s : Finset String, m.mid ∈ l.foldl (fun s m => insert m.mid s) s := by
  induction l with
  | nil => cases hm
  | cons a rest ih =>
    intro s
    rw [List.foldl_cons]
    rcases List.mem_cons.mp hm with h | h
    · subst h
      exact subset_foldl_insert rest (insert m.mid s) (Finset.mem_insert_self m.mid s)
    · exact ih h (insert a.mid s)

theorem poll_cycle_events_nil_of_seen (kws : List String) (seen : Finset String)
    (msgs : List Msg) (h : ∀ m ∈ msgs, m.mid ∈ seen) :
    (poll_cycle kws seen msgs).2 = [] := by
  rw [poll_cycle]
  have hf : msgs.filter (fun m => decide (m.mid ∉ seen)) = [] := by
    rw [List.filter_eq_nil_iff]
    intro m hm
    simp [h m hm]
  rw [hf]
  rfl

theorem open_go_ok (outcome : Nat → AttemptResult) :
    ∀ r a i, a ≤ i → i < a + r → outcome i = .success →
      (∀ j, a ≤ j → j < i → outcome j ≠ .success) →
      open_go outcome a r = .ok i := by
  intro r
  induction r with
  | zero => intro a i ha hi _ _; omega
  | succ r ih =>
    intro a i ha hi hs hmin
    cases houta : outcome a with
    | success =>
      have hia : i = a := by
        by_contra hne
        exact hmin a (Nat.le_refl a) (by omega) houta
      subst hia
      rw [open_go, houta]
    | staleFail =>
      have hia : a < i := by
        rcases Nat.lt_or_ge a i with h | h
        · exact h
        · have : i = a := by omega
          rw [this, houta] at hs
          cases hs
      rw [open_go, houta]
      exact ih (a + 1) i (by omega) (by omega) hs (fun j h1 h2 => hmin j (by omega) h2)
    | otherFail =>
      have hia : a < i := by
        rcases Nat.lt_or_ge a i with h | h
        · exact h
        · have : i = a := by omega
          rw [this, houta] at hs
          cases hs
      rw [open_go, houta]
      exact ih (a + 1) i (by omega) (by omega) hs (fun j h1 h2 => hmin j (by omega) h2)

theorem open_go_error_iff (outcome : Nat → AttemptResult) :
    ∀ r a, (∃ e, open_go outcome a r = .error e) ↔
      ∀ i, a ≤ i → i < a + r → outcome i ≠ .success := by
  intro r
  induction r with
  | zero =>
    intro a
    constructor
    · intro _ i h1 h2; omega
    · intro _; exact ⟨_, rfl⟩
  | succ r ih =>
    intro a
    cases houta : outcome a with
    | success =>
      rw [open_go, houta]
      constructor
      · rintro ⟨e, he⟩; cases he
      · intro h; exact absurd houta (h a (Nat.le_refl a) (by omega))
    | staleFail =>
      rw [open_go, houta]
      rw [ih (a + 1)]
      constructor
      · intro h i h1 h2
        rcases Nat.eq_or_lt_of_le h1 with he | hl
        · rw [← he, houta]; intro hc; cases hc
        · exact h i hl (by omega)
      · intro h i h1 h2
        exact h i (by omega) (by omega)
    | otherFail =>
      rw [open_go, houta]
      rw [ih (a + 1)]
      constructor
      · intro h i h1 h2
        rcases Nat.eq_or_lt_of_le h1 with he | hl
        · rw [← he, houta]; intro hc; cases hc
        · exact h i hl (by omega)
      · intro h i h1 h2
        exact h i (by omega) (by omega)

/-- C1 counterexample: a cycle whose snapshot enumeration raises terminates
the loop — the subsequent cycle, which alone would have printed a message, is
never executed — refuting that every Snapshot-Reader error lets the loop
proceed to the next cycle. -/
theorem C1_polling_error_counterexample :
    (run_loop ["urgent"] ∅ [⟨.ok (), .error ()⟩, ⟨.ok (), .ok [elemU]⟩]).2.2 = true
    ∧ (run_loop ["urgent"] ∅ [⟨.ok (), .error ()⟩, ⟨.ok (), .ok [elemU]⟩]).2.1 = []
    ∧ (run_loop ["urgent"] ∅ [⟨.ok (), .ok [elemU]⟩]).2.1 ≠ [] := by
  refine ⟨rfl, rfl, by decide⟩

/-- C1 amended: scroll-hint failures and per-element read failures never
abort a cycle — any cycle whose enumeration succeeds proceeds, whatever the
scroll outcome — while an error from the snapshot enumeration itself aborts
the loop, skipping all remaining cycles. -/
theorem C1_polling_error_amended (kws : List String) (seen : Finset String)
    (sc sc' : Except Unit Unit) (blocks : List RawElem) (rest : List CycleInput) :
    run_cycle kws seen ⟨sc, .ok blocks⟩
      = .next (poll_cycle kws seen (get_messages blocks)).1
          (poll_cycle kws seen (get_messages blocks)).2
    ∧ run_loop kws seen (⟨sc, .ok blocks⟩ :: rest) = run_loop kws seen (⟨sc', .ok blocks⟩ :: rest)
    ∧ (∀ e, run_cycle kws seen ⟨sc, .error e⟩ = .aborted)
    ∧ (∀ e, run_loop kws seen (⟨sc, .error e⟩ :: rest) = (seen, [], true)) :=
  ⟨rfl, rfl, fun _ => rfl, fun _ => rfl⟩

/-- C2 counterexample: a snapshot containing the same id twice prints and
alarms that id twice in one cycle — the delta is filtered against the seen
set as of cycle start, so the second occurrence is processed although its id
was added by the first — refuting "at most once". -/
theorem C2_seenset_counterexample :
    printedCount msgU.mid (run_polls ["urgent"] ∅ [[msgU, msgU]]).2 = 2
    ∧ alarmCount msgU.mid (run_polls ["urgent"] ∅ [[msgU, msgU]]).2 = 2 := by
  refine ⟨by decide, by decide⟩

/-- C2 amended: the seen set grows monotonically; an id already seen at the
start of a cycle is never printed or alarmed again; and when no single
snapshot repeats an id, every id is printed and alarmed at most once over the
whole run. -/
theorem C2_seenset_amended (kws : List String) (seen : Finset String)
    (polls : List (List Msg)) :
    seen ⊆ (run_polls kws seen polls).1
    ∧ (∀ i ∈ seen, printedCount i (run_polls kws seen polls).2 = 0
        ∧ alarmCount i (run_polls kws seen polls).2 = 0)
    ∧ ((∀ snap ∈ polls, (snap.map Msg.mid).Nodup) →
        ∀ i, printedCount i (run_polls kws seen polls).2 ≤ 1
        ∧ alarmCount i (run_polls kws seen polls).2 ≤ 1) := by
  refine ⟨run_polls_subset kws polls seen, ?_, ?_⟩
  · intro i hi
    exact ⟨printedCount_run_of_mem i kws polls seen hi,
      alarmCount_run_of_mem i kws polls seen hi⟩
  · intro hnd i
    exact ⟨printedCount_run_le_one i kws polls hnd seen,
      alarmCount_run_le_one i kws polls hnd seen⟩

theorem C2_seenset_witness :
    printedCount "x" (run_polls ["urgent"] {"x"} [[msgU]]).2 = 0
    ∧ printedCount msgU.mid (run_polls ["urgent"] {"x"} [[msgU]]).2 ≤ 1 :=
  ⟨((C2_seenset_amended ["urgent"] {"x"} [[msgU]]).2.1 "x" (Finset.mem_singleton_self "x")).1,
   ((C2_seenset_amended ["urgent"] {"x"} [[msgU]]).2.2 (by decide) msgU.mid).1⟩

/-- C3: seeding adds every id of the seed snapshot to the seen set while
emitting nothing, and an immediate re-observation of the seed snapshot
produces zero printed lines and zero alarms. -/
theorem C3_seeding_no_alerts (kws : List String) (snap1 snap : List Msg) :
    (∀ m ∈ snap, m.mid ∈ seed_startup snap1 snap)
    ∧ (run_polls kws (seed_startup snap1 snap) []).2 = []
    ∧ (poll_cycle kws (seed_startup snap1 snap) snap).2 = [] := by
  have hmem : ∀ m ∈ snap, m.mid ∈ seed_startup snap1 snap := by
    intro m hm
    exact mid_mem_foldl_insert snap m hm ∅
  exact ⟨hmem, rfl, poll_cycle_events_nil_of_seen kws _ snap hmem⟩

theorem C3_seeding_witness :
    msgU.mid ∈ seed_startup [] [msgU]
    ∧ (poll_cycle ["urgent"] (seed_startup [] [msgU]) [msgU]).2 = [] :=
  ⟨(C3_seeding_no_alerts ["urgent"] [] [msgU]).1 msgU (List.mem_singleton_self msgU),
   (C3_seeding_no_alerts ["urgent"] [] [msgU]).2.2⟩

/-- C9: the first seeding pass is dead — the set it builds is discarded by
`seen_ids = set()` — so the startup seeding equals the spec's
seed-once-at-SEEDED-state behaviour, whatever the first read returned, and so
does every subsequent run of the polling loop. -/
theorem C9_dead_seed_refinement (snap1 snap2 : List Msg) (kws : List String)
    (polls : List (List Msg)) :
    seed_startup snap1 snap2 = seedOnce snap2
    ∧ run_polls kws (seed_startup snap1 snap2) polls
      = run_polls kws (seedOnce snap2) polls :=
  ⟨rfl, rfl⟩

/-- C10 counterexample: with keywords `["a", " "]` — where `" "` is the only
keyword normalizing to empty — the matcher on text `"cat"` returns `"a"`, not
the first empty-normalizing keyword. -/
theorem C10_empty_keyword_counterexample :
    normalize " " = "" ∧ (∀ kw ∈ ["a"], normalize kw ≠ "")
    ∧ keyword_hit "cat" ["a", " "] = some "a"
    ∧ keyword_hit "cat" ["a", " "] ≠ some " " := by
  refine ⟨by decide, by decide, by decide, by decide⟩

/-- C10 amended: a keyword normalizing to the empty string makes the matcher
return a match — the first keyword in order whose normalized form is a
substring, not necessarily the empty-normalizing one — for every message text
whatsoever, so every message alerts. -/
theorem C10_empty_keyword_amended (text : String) (kws : List String) (kw : String)
    (hk : kw ∈ kws) (he : normalize kw = "") :
    ∃ k, keyword_hit text kws = some k := by
  have hp : strContains (normalize text) (normalize kw) = true := by
    rw [he]
    simp [strContains]
  have hs : (keyword_hit text kws).isSome := by
    rw [keyword_hit, List.find?_isSome]
    exact ⟨kw, hk, hp⟩
  exact Option.isSome_iff_exists.mp hs

theorem C10_empty_keyword_witness :
    ∃ k, keyword_hit "anything at all" ["a", " "] = some k :=
  C10_empty_keyword_amended "anything at all" ["a", " "] " " (by decide) (by decide)

/-- C8: the conversation locator performs exactly the attempt budget 1..5: it
succeeds on the first successful attempt; it raises the fatal error precisely
when all five attempts fail; and a failed open aborts the session before any
seeding or polling, with no events emitted. -/
theorem C8_locator_retries (outcome : Nat → AttemptResult) :
    ((∃ e, open_group_chat outcome = .error e) ↔
      ∀ i, 1 ≤ i → i ≤ 5 → outcome i ≠ .success)
    ∧ (∀ i, 1 ≤ i → i ≤ 5 → outcome i = .success →
        (∀ j, 1 ≤ j → j < i → outcome j ≠ .success) → open_group_chat outcome = .ok i)
    ∧ (∀ kws s1 s2 polls e, open_group_chat outcome = .error e →
        main_session kws (open_group_chat outcome) s1 s2 polls = ([], true)) := by
  refine ⟨?_, ?_, ?_⟩
  · have h5 := open_go_error_iff outcome 5 1
    rw [open_group_chat]
    constructor
    · intro h i h1 h2
      exact h5.mp h i h1 (by omega)
    · intro h
      exact h5.mpr (fun i h1 h2 => h i h1 (by omega))
  · intro i h1 h2 hs hmin
    exact open_go_ok outcome 5 1 i h1 (by omega) hs hmin
  · intro kws s1 s2 polls e he
    rw [he]
    rfl

theorem C8_locator_retries_witness :
    open_group_chat outcomeTwo = .ok 2
    ∧ (∃ e, open_group_chat (fun _ => .otherFail) = .error e) :=
  ⟨(C8_locator_retries outcomeTwo).2.1 2 (by omega) (by omega) rfl
      (fun j h1 h2 => by
        have hj : j = 1 := by omega
        subst hj
        simp [outcomeTwo]),
   (C8_locator_retries (fun _ => .otherFail)).1.mpr
      (fun i _ _ => by intro h; cases h)⟩

end WhatsAppAlarm
